import Mathlib

/-!
Verification of the `TP1` kill-log aggregation pipeline (`src/main.rs`,
`src/models.rs`) against its natural-language specification.

Modelling conventions, used throughout:

* Rust `HashMap<String, V>` is modelled extensionally as `String → Option V`;
  two hash maps are equal exactly when they hold the same key/value pairs.
  The unspecified iteration order of a hash map is modelled by universally
  quantifying over every list that enumerates its entries (`Enumerates`).
* Rust `u32`/`usize` counters are modelled as `Nat`.  No claim in this
  development depends on wrap-around behaviour of machine integers.
* Rust `f32`/`f64` values are carried as rationals (`ℚ`).  Arithmetic on
  them is modelled at two levels of precision, matching what each claim
  depends on.  Where only counts, orderings, nonnegativity or the shape of
  the computation matter, operations are exact rational arithmetic; the
  square root inside the per-event distance is `Real.sqrt` and
  `format!("\x7b:.2\x7d")` followed by `parse` is rounding to the nearest multiple
  of 1/100.  (That rounding is half-up, while the formatting of the code
  rounds half to even; the two differ only at exact two-decimal ties such
  as 0.125, and no stated property depends on the tie direction.)  Where
  the float arithmetic itself is in question — the merging of f32
  distance sums across reduction trees, claim C1 — binary32 addition is
  modelled faithfully: `fl32` is round-to-nearest-ties-to-even at 24
  significant bits and `addF32` is the correctly rounded sum, as IEEE-754
  prescribes for `f32 +`.
* Rust `String` ordering (`String::cmp`, lexicographic on UTF-8 bytes) is
  modelled as the lexicographic order on the character list `String.data`;
  UTF-8 encoding preserves the codepoint order, so the two orders agree.
* `std::process::exit(1)` inside record processing is modelled by returning
  `none`; `Vec::sort_by`, a stable sort, is modelled by a stable insertion
  sort with the translated comparator (all stable sorts with the same
  comparator compute the same list).
-/

namespace TP1

/-! ### Lexicographic string order (model of Rust `String::cmp`) -/

/-- Lexicographic `≤` on character lists, modelling Rust byte-wise string
comparison (UTF-8 byte order coincides with codepoint order). -/
def lexLe : List Char → List Char → Bool
  | [], _ => true
  | _ :: _, [] => false
  | a :: as, b :: bs => if a < b then true else if b < a then false else lexLe as bs

/-- Model of Rust string comparison: `strLe a b` is `a.cmp(&b) != Ordering::Greater` for Rust strings. -/
def strLe (a b : String) : Bool := lexLe a.data b.data

theorem lexLe_total : ∀ a b : List Char, lexLe a b = true ∨ lexLe b a = true
  | [], _ => Or.inl rfl
  | _ :: _, [] => Or.inr rfl
  | a :: as, b :: bs => by
    rcases lt_trichotomy a b with h | h | h
    · left; simp [lexLe, h]
    · subst h
      rcases lexLe_total as bs with ih | ih
      · left; simp [lexLe, lt_irrefl, ih]
      · right; simp [lexLe, lt_irrefl, ih]
    · right; simp [lexLe, h]

theorem lexLe_cons {a b : Char} {as bs : List Char} :
    lexLe (a :: as) (b :: bs) = true ↔ a < b ∨ (a = b ∧ lexLe as bs = true) := by
  simp only [lexLe]
  rcases lt_trichotomy a b with h | h | h
  · simp [h]
  · subst h; simp [lt_irrefl]
  · simp [lt_asymm h, h, ne_of_gt h]

theorem lexLe_trans : ∀ {a b c : List Char},
    lexLe a b = true → lexLe b c = true → lexLe a c = true
  | [], _, _, _, _ => rfl
  | _ :: _, [], _, h, _ => by simp [lexLe] at h
  | _ :: _, _ :: _, [], _, h => by simp [lexLe] at h
  | a :: as, b :: bs, c :: cs, hab, hbc => by
    rcases lexLe_cons.1 hab with h1 | ⟨h1, h1t⟩ <;>
      rcases lexLe_cons.1 hbc with h2 | ⟨h2, h2t⟩
    · exact lexLe_cons.2 (Or.inl (lt_trans h1 h2))
    · exact lexLe_cons.2 (Or.inl (h2 ▸ h1))
    · exact lexLe_cons.2 (Or.inl (h1 ▸ h2))
    · exact lexLe_cons.2 (Or.inr ⟨h1.trans h2, lexLe_trans h1t h2t⟩)

theorem lexLe_antisymm : ∀ {a b : List Char},
    lexLe a b = true → lexLe b a = true → a = b
  | [], [], _, _ => rfl
  | [], _ :: _, _, h => by simp [lexLe] at h
  | _ :: _, [], h, _ => by simp [lexLe] at h
  | a :: as, b :: bs, hab, hba => by
    rcases lexLe_cons.1 hab with h1 | ⟨h1, h1t⟩
    · rcases lexLe_cons.1 hba with h2 | ⟨h2, _⟩
      · exact absurd (lt_trans h1 h2) (lt_irrefl a)
      · exact absurd (h2 ▸ h1) (lt_irrefl b)
    · rcases lexLe_cons.1 hba with h2 | ⟨_, h2t⟩
      · exact absurd (h1 ▸ h2) (lt_irrefl b)
      · rw [h1, lexLe_antisymm h1t h2t]

theorem strLe_total (a b : String) : strLe a b = true ∨ strLe b a = true :=
  lexLe_total a.data b.data

theorem strLe_trans {a b c : String} (h1 : strLe a b = true) (h2 : strLe b c = true) :
    strLe a c = true :=
  lexLe_trans h1 h2

theorem strLe_antisymm {a b : String} (h1 : strLe a b = true) (h2 : strLe b a = true) :
    a = b :=
  String.ext (lexLe_antisymm h1 h2)

/-! ### Stable sort (model of `Vec::sort_by`) -/

/-- Insert `a` in front of the first element `b` with `le a b`; the
recursion of a stable insertion sort. -/
def ordInsert (le : α → α → Bool) (a : α) : List α → List α
  | [] => [a]
  | b :: l => if le a b then a :: b :: l else b :: ordInsert le a l

/-- Stable sort with a boolean comparator.  Models `Vec::sort_by` (a stable
sort); every stable sort with the same comparator produces the same list. -/
def sortBy (le : α → α → Bool) : List α → List α
  | [] => []
  | a :: l => ordInsert le a (sortBy le l)

theorem ordInsert_perm (le : α → α → Bool) (a : α) :
    ∀ l : List α, (ordInsert le a l).Perm (a :: l)
  | [] => List.Perm.refl _
  | b :: l => by
    unfold ordInsert
    split
    · exact List.Perm.refl _
    · exact ((ordInsert_perm le a l).cons b).trans (List.Perm.swap a b l)

theorem sortBy_perm (le : α → α → Bool) : ∀ l : List α, (sortBy le l).Perm l
  | [] => List.Perm.refl _
  | a :: l => (ordInsert_perm le a (sortBy le l)).trans ((sortBy_perm le l).cons a)

theorem length_sortBy (le : α → α → Bool) (l : List α) :
    (sortBy le l).length = l.length :=
  (sortBy_perm le l).length_eq

theorem mem_ordInsert {le : α → α → Bool} {a x : α} {l : List α} :
    x ∈ ordInsert le a l ↔ x = a ∨ x ∈ l := by
  rw [(ordInsert_perm le a l).mem_iff, List.mem_cons]

theorem ordInsert_pairwise {le : α → α → Bool}
    (htot : ∀ a b, le a b = true ∨ le b a = true)
    (htr : ∀ {a b c}, le a b = true → le b c = true → le a c = true) (a : α) :
    ∀ {l : List α}, l.Pairwise (fun x y => le x y = true) →
      (ordInsert le a l).Pairwise (fun x y => le x y = true)
  | [], _ => by simp [ordInsert]
  | b :: l, hs => by
    unfold ordInsert
    split
    · rename_i hab
      refine hs.cons ?_
      intro x hx
      rcases List.mem_cons.1 hx with h | h
      · subst h; exact hab
      · exact htr hab (List.rel_of_pairwise_cons hs h)
    · rename_i hab
      have hba : le b a = true := (htot a b).resolve_left hab
      refine (ordInsert_pairwise htot htr a (List.Pairwise.sublist (List.sublist_cons_self b l) hs)).cons ?_
      intro x hx
      rcases mem_ordInsert.1 hx with h | h
      · subst h; exact hba
      · exact List.rel_of_pairwise_cons hs h

theorem sortBy_pairwise {le : α → α → Bool}
    (htot : ∀ a b, le a b = true ∨ le b a = true)
    (htr : ∀ {a b c}, le a b = true → le b c = true → le a c = true) :
    ∀ l : List α, (sortBy le l).Pairwise (fun x y => le x y = true)
  | [] => List.Pairwise.nil
  | a :: l => ordInsert_pairwise htot htr a (sortBy_pairwise htot htr l)

/-- Two sorted lists that are permutations of each other, on which the
comparator is antisymmetric, are equal.  (The member-relative antisymmetry
is what the deterministic tie-break of the ranking provides.) -/
theorem eq_of_perm_of_pairwise {le : α → α → Bool} :
    ∀ {l₁ l₂ : List α}, l₁.Perm l₂ →
      l₁.Pairwise (fun x y => le x y = true) →
      l₂.Pairwise (fun x y => le x y = true) →
      (∀ a b, a ∈ l₁ → b ∈ l₁ → le a b = true → le b a = true → a = b) →
      l₁ = l₂
  | [], l₂, p, _, _, _ => (p.symm.eq_nil).symm
  | a :: t₁, [], p, _, _, _ => absurd (p.eq_nil) (by simp)
  | a :: t₁, b :: t₂, p, s₁, s₂, anti => by
    by_cases hab : a = b
    · subst hab
      have ht : t₁.Perm t₂ := p.cons_inv
      have : t₁ = t₂ := by
        refine eq_of_perm_of_pairwise ht (s₁.sublist (List.sublist_cons_self a t₁))
          (s₂.sublist (List.sublist_cons_self a t₂)) ?_
        intro x y hx hy
        exact anti x y (List.mem_cons_of_mem a hx) (List.mem_cons_of_mem a hy)
      rw [this]
    · exfalso
      have hb1 : b ∈ a :: t₁ := p.mem_iff.2 (List.mem_cons_self b t₂)
      have hbt : b ∈ t₁ := by
        rcases List.mem_cons.1 hb1 with h | h
        · exact absurd h.symm hab
        · exact h
      have ha2 : a ∈ b :: t₂ := p.mem_iff.1 (List.mem_cons_self a t₁)
      have hat : a ∈ t₂ := by
        rcases List.mem_cons.1 ha2 with h | h
        · exact absurd h hab
        · exact h
      have h1 : le a b = true := List.rel_of_pairwise_cons s₁ hbt
      have h2 : le b a = true := List.rel_of_pairwise_cons s₂ hat
      exact hab (anti a b (List.mem_cons_self a t₁) (List.mem_cons_of_mem a hbt) h1 h2)

/-- Sorting with an on-members antisymmetric comparator does not depend on
the order of the input list. -/
theorem sortBy_eq_of_perm {le : α → α → Bool}
    (htot : ∀ a b, le a b = true ∨ le b a = true)
    (htr : ∀ {a b c}, le a b = true → le b c = true → le a c = true)
    {l₁ l₂ : List α} (p : l₁.Perm l₂)
    (anti : ∀ a b, a ∈ l₁ → b ∈ l₁ → le a b = true → le b a = true → a = b) :
    sortBy le l₁ = sortBy le l₂ := by
  refine eq_of_perm_of_pairwise ((sortBy_perm le l₁).trans (p.trans (sortBy_perm le l₂).symm))
    (sortBy_pairwise htot htr l₁) (sortBy_pairwise htot htr l₂) ?_
  intro a b ha hb
  exact anti a b ((sortBy_perm le l₁).mem_iff.1 ha) ((sortBy_perm le l₁).mem_iff.1 hb)

/-! ### Data model (`src/models.rs`) -/

/-- Structure `RowWeapon` from `models.rs`: per-weapon accumulator. -/
structure RowWeapon where
  name : String
  amount_deaths : Nat
  accumulator_distance : ℚ
deriving DecidableEq

/-- Structure `Weapon` from `models.rs`: a ranked weapon in the report. -/
structure Weapon where
  name : String
  amount_deaths : Nat
  deaths_percentage : ℚ
  average_distance : ℚ
deriving DecidableEq

/-- Structure `RowKiller` from `models.rs`: per-killer accumulator with its per-weapon
count map (`HashMap<String, u32>` modelled extensionally). -/
structure RowKiller where
  name : String
  amount_deaths : Nat
  weapons : String → Option Nat

/-- A `RowKiller` as `calculate_top_killers` observes it: the
weapon map materialised in some (arbitrary) iteration order. -/
structure RowKillerView where
  name : String
  amount_deaths : Nat
  weapons : List (String × Nat)
deriving DecidableEq

/-- Structure `Killer` from `models.rs`: a ranked killer in the report. -/
structure Killer where
  name : String
  deaths : Nat
  weapons : List (String × ℚ)
deriving DecidableEq

/-- Weapon-name map of a partial or global aggregate. -/
def WMap : Type := String → Option RowWeapon

/-- Killer-name map of a partial or global aggregate. -/
def KMap : Type := String → Option RowKiller

/-- One `(total_kills, weapons, killers)` triple of `process_files`: a
partial aggregate of one file, or the merged global aggregate. -/
structure Agg where
  total_kills : Nat
  weapons : WMap
  killers : KMap

/-- The empty aggregate, identity of the rayon `reduce` in `process_files`. -/
def emptyAgg : Agg := ⟨0, fun _ => none, fun _ => none⟩

/-- Predicate: `l` is the entry sequence some iteration of the hash map `m` yields:
keys are distinct and the listed pairs are exactly the entries of the map. -/
def Enumerates {β : Type} (m : String → Option β) (l : List (String × β)) : Prop :=
  (l.map Prod.fst).Nodup ∧ ∀ k v, m k = some v ↔ (k, v) ∈ l

/-! ### Rounding and distance (`calculate_distance`, lines 59-87) -/

/-- Model of `format!("\x7b:.2\x7d", x).parse()`: round to the nearest multiple of 1/100.
(Ties cannot occur on the values the code formats, see the file header.) -/
def round2q (x : ℚ) : ℚ := (⌊x * 100 + 1 / 2⌋ : ℤ) / 100

/-- The rounded Euclidean distance of the all-coordinates-present branch of
`calculate_distance`: `sqrt((kx-vx)^2 + (ky-vy)^2)` rounded to 2 decimals.
The real square root is irrational in general, but its 2-decimal rounding
is the rational returned here. -/
noncomputable def roundedDist (kx ky vx vy : ℚ) : ℚ :=
  ((⌊Real.sqrt (((kx : ℝ) - vx) ^ 2 + ((ky : ℝ) - vy) ^ 2) * 100 + 1 / 2⌋ : ℤ) : ℚ) / 100

/-- Function `calculate_distance` (lines 59-87): all four coordinates present give
the rounded Euclidean distance, anything missing gives `0.0`. -/
noncomputable def calculate_distance :
    Option ℚ → Option ℚ → Option ℚ → Option ℚ → ℚ
  | some kx, some ky, some vx, some vy => roundedDist kx ky vx vy
  | _, _, _, _ => 0

/-! ### Per-row aggregation (`process_weapon_record`, `process_killer_record`) -/

/-- A CSV record is its list of cells; `record.get(i)` is `List.get?`. -/
def recordGet (record : List String) (i : Nat) : Option String := record.get? i

/-- Function `process_weapon_record` (lines 178-219).  `parseF` models
`str::parse::<f32>` on coordinate cells (which cells parse is irrelevant to
every claim).  `none` models `std::process::exit(1)` on a missing weapon
name; otherwise the entry of the weapon is created at 1 kill or incremented,
adding the `calculate_distance` of the event to `accumulator_distance`. -/
noncomputable def process_weapon_record (parseF : String → Option ℚ)
    (record : List String) (weapons : WMap) : Option WMap :=
  match recordGet record 0 with
  | none => none
  | some weapon_name =>
    let kill_x := (recordGet record 3).bind parseF
    let kill_y := (recordGet record 4).bind parseF
    let victim_x := (recordGet record 10).bind parseF
    let victim_y := (recordGet record 11).bind parseF
    let d := calculate_distance kill_x kill_y victim_x victim_y
    match weapons weapon_name with
    | some current =>
      some (fun k => if k = weapon_name then
        some ⟨current.name, current.amount_deaths + 1, current.accumulator_distance + d⟩
        else weapons k)
    | none =>
      some (fun k => if k = weapon_name then some ⟨weapon_name, 1, d⟩ else weapons k)

/-- Function `process_killer_record` (lines 221-265): `none` models
`std::process::exit(1)` on a missing killer or weapon name; otherwise the
kill count of the killer and its per-weapon count are created or incremented. -/
def process_killer_record (record : List String) (killers : KMap) : Option KMap :=
  match recordGet record 1 with
  | none => none
  | some killer_name =>
    match recordGet record 0 with
    | none => none
    | some weapon_name =>
      match killers killer_name with
      | some current =>
        some (fun k => if k = killer_name then
          some ⟨current.name, current.amount_deaths + 1,
            fun w => if w = weapon_name then
              some (match current.weapons weapon_name with
                    | some c => c + 1
                    | none => 1)
              else current.weapons w⟩
          else killers k)
      | none =>
        some (fun k => if k = killer_name then
          some ⟨killer_name, 1, fun w => if w = weapon_name then some 1 else none⟩
          else killers k)

/-- One loop iteration of the per-file record loop (lines 306-317): both
record processors run on the row; a failure of either is fatal. -/
noncomputable def processRecord (parseF : String → Option ℚ) (record : List String)
    (s : WMap × KMap) : Option (WMap × KMap) :=
  match process_weapon_record parseF record s.1 with
  | none => none
  | some w =>
    match process_killer_record record s.2 with
    | none => none
    | some k => some (w, k)

/-- The whole record loop of one file over its data rows (header already
skipped, lines 301-317). -/
noncomputable def process_rows (parseF : String → Option ℚ) :
    List (List String) → WMap × KMap → Option (WMap × KMap)
  | [], s => some s
  | r :: rest, s =>
    match processRecord parseF r s with
    | none => none
    | some s1 => process_rows parseF rest s1

/-- The map phase of `process_files` for one file (lines 270-320): a file is
modelled as its list of data rows; `total_kills` is the data-row count. -/
noncomputable def process_file (parseF : String → Option ℚ)
    (rows : List (List String)) : Option Agg :=
  match process_rows parseF rows (fun _ => none, fun _ => none) with
  | none => none
  | some (w, k) => some ⟨rows.length, w, k⟩

/-! ### The merge closure of the rayon `reduce` (lines 321-387) -/

/-- Merging the weapon maps: entries of the second map are added into the
first; an entry new to the first map is inserted under its key. -/
def mergeWeaponMaps (w1 w2 : WMap) : WMap := fun key =>
  match w1 key, w2 key with
  | some current, some value =>
    some ⟨current.name, current.amount_deaths + value.amount_deaths,
      current.accumulator_distance + value.accumulator_distance⟩
  | some current, none => some current
  | none, some value => some ⟨key, value.amount_deaths, value.accumulator_distance⟩
  | none, none => none

/-- Merging two per-killer weapon count maps, additively by weapon name. -/
def mergeKWMaps (m1 m2 : String → Option Nat) : String → Option Nat := fun key =>
  match m1 key, m2 key with
  | some a, some b => some (a + b)
  | some a, none => some a
  | none, some b => some b
  | none, none => none

/-- Merging the killer maps: kill counts add and the per-weapon submaps
merge additively; an entry new to the first map is inserted under its key. -/
def mergeKillerMaps (k1 k2 : KMap) : KMap := fun key =>
  match k1 key, k2 key with
  | some current, some value =>
    some ⟨current.name, current.amount_deaths + value.amount_deaths,
      mergeKWMaps current.weapons value.weapons⟩
  | some current, none => some current
  | none, some value => some ⟨key, value.amount_deaths, value.weapons⟩
  | none, none => none

/-- The reduce closure of `process_files` (lines 329-386). -/
def merge (a b : Agg) : Agg :=
  ⟨a.total_kills + b.total_kills, mergeWeaponMaps a.weapons b.weapons,
    mergeKillerMaps a.killers b.killers⟩

/-- Function `process_files` (lines 267-396) up to the ranking step: aggregate every
file and reduce.  The rayon reduction tree is unconstrained; it is modelled
as a left fold from the identity aggregate (the claim `C1` machinery shows
the grouping and order do not matter). -/
noncomputable def process_files (parseF : String → Option ℚ)
    (files : List (List (List String))) : Option Agg :=
  match files.mapM (process_file parseF) with
  | none => none
  | some aggs => some (aggs.foldl merge emptyAgg)

/-! ### Ranking (`calculate_top_weapons`, `calculate_top_killers`) -/

/-- The comparator shape shared by the three `sort_by` closures: primary
key (a count) descending, tie broken by a name ascending.  `keyLe x y` is
`key(y).cmp(&key(x)).then_with(|| name(x).cmp(&name(y))) != Greater`. -/
def keyLe (key : α → Nat) (name : α → String) (x y : α) : Bool :=
  decide (key y < key x) || (decide (key x = key y) && strLe (name x) (name y))

/-- The `Weapon` built for one map entry in `calculate_top_weapons`
(lines 95-114): kill share of the run and average kill distance, both
rounded to 2 decimals.  The divisions are exact rational divisions; the
entry invariants (`kill_count ≥ 1`, and a nonempty run) keep the
denominators the code divides by nonzero. -/
def mkWeapon (total_kills : Nat) (value : RowWeapon) : Weapon :=
  { name := value.name
    amount_deaths := value.amount_deaths
    deaths_percentage := round2q ((value.amount_deaths : ℚ) / (total_kills : ℚ) * 100)
    average_distance := round2q (value.accumulator_distance / (value.amount_deaths : ℚ)) }

/-- The weapon `sort_by` closure (lines 117-121). -/
def weaponLe : Weapon → Weapon → Bool :=
  keyLe Weapon.amount_deaths Weapon.name

/-- Function `calculate_top_weapons` (lines 89-126) on the entry sequence the map
iteration yields: build the `Weapon` list, stable-sort it by kills
descending with name-ascending tie-break, keep the first 10. -/
def calculate_top_weapons (entries : List RowWeapon) (total_kills : Nat) : List Weapon :=
  (sortBy weaponLe (entries.map (mkWeapon total_kills))).take 10

/-- The per-killer weapon `sort_by` closure (line 141). -/
def killerWeaponLe : String × Nat → String × Nat → Bool :=
  keyLe Prod.snd Prod.fst

/-- The killer `sort_by` closure (line 172). -/
def killerLe : Killer → Killer → Bool :=
  keyLe Killer.deaths Killer.name

/-- The `Killer` built for one map entry in `calculate_top_killers`
(lines 133-169): the own weapon entries of the killer, stable-sorted by count
descending with name-ascending tie-break, truncated to 3, each with its
usage percentage rounded to 2 decimals. -/
def mkKiller (value : RowKillerView) : Killer :=
  { name := value.name
    deaths := value.amount_deaths
    weapons := ((sortBy killerWeaponLe value.weapons).take 3).map
      (fun p => (p.1, round2q ((p.2 : ℚ) / (value.amount_deaths : ℚ) * 100))) }

/-- Function `calculate_top_killers` (lines 128-176) on the entry sequences the map
iterations yield: build the `Killer` list, stable-sort it by kills
descending with name-ascending tie-break, keep the first 10. -/
def calculate_top_killers (entries : List RowKillerView) : List Killer :=
  (sortBy killerLe (entries.map mkKiller)).take 10

/-- Predicate: `view` is the reading `calculate_top_killers` makes of one killer map entry:
same name and count, and its weapon list is some iteration of the weapon map of the entry. -/
def ViewsEntry (p : String × RowKiller) (view : RowKillerView) : Prop :=
  view.name = p.2.name ∧ view.amount_deaths = p.2.amount_deaths ∧
    Enumerates p.2.weapons view.weapons

/-- Predicate: `views` is the killer map `km` as one run of `calculate_top_killers`
observes it: some iteration of `km`, each entry read via `ViewsEntry`. -/
def ViewsKillerMap (km : KMap) (views : List RowKillerView) : Prop :=
  ∃ kl, Enumerates km kl ∧ List.Forall₂ ViewsEntry kl views

/-! ### The output write (`write_json_to_file`, lines 428-439, and `main`,
lines 441-472) -/

/-- State of the output file after the run. -/
inductive FileState where
  | absent
  | incomplete
  | complete
deriving DecidableEq

/-- Which steps of the write path succeed: JSON serialization
(`serde_json::to_string_pretty`), `File::create`, `write_all`. -/
structure WriteEnv where
  serializeOk : Bool
  createOk : Bool
  writeAllOk : Bool

/-- Result of `write_json_to_file`: the `expect` on serialization panics
before the file is created; `File::create` and `write_all` failures return
`Err`, the latter after part of the bytes may already be on disk. -/
inductive WriteResult where
  | panicked
  | ioError
  | ok
deriving DecidableEq

/-- Function `write_json_to_file` (lines 428-439): serialize first (panicking via
`expect` on failure, with no file yet created), then create the file, then
write all bytes. -/
def write_json_to_file (env : WriteEnv) : WriteResult × FileState :=
  if env.serializeOk = false then (.panicked, .absent)
  else if env.createOk = false then (.ioError, .absent)
  else if env.writeAllOk = false then (.ioError, .incomplete)
  else (.ok, .complete)

/-- What the process reports after the write step. -/
structure RunOutcome where
  exitCode : Nat
  file : FileState
  errorReported : Bool
deriving DecidableEq

/-- The tail of `main` (lines 464-471): a panic aborts the process with
the nonzero Rust panic status; an `Err` from `write_json_to_file` is only
printed (`eprintln!`) after which `main` still returns `Ok(())`, i.e. the
process exits with status 0. -/
def mainWriteStep (env : WriteEnv) : RunOutcome :=
  match write_json_to_file env with
  | (.panicked, fs) => ⟨101, fs, true⟩
  | (.ioError, fs) => ⟨0, fs, true⟩
  | (.ok, fs) => ⟨0, fs, false⟩

/-! ### Merge algebra of the exact-arithmetic model

These lemmas hold for the exact-rational reading of the merge, in which
the count fields, the key structure and the name fields merge
associatively and commutatively exactly as in the program (integer
arithmetic).  They do NOT transfer to the f32 distance sums the program
actually accumulates: see the claim C1 section, where the faithful
binary32 addition is shown non-associative. -/

/-- Every weapon entry is stored under its own name.  `FileAggregator`
creates entries only this way, and `merge` preserves it. -/
def WfW (m : WMap) : Prop := ∀ k v, m k = some v → v.name = k

/-- Every killer entry is stored under its own name. -/
def WfK (m : KMap) : Prop := ∀ k v, m k = some v → v.name = k

/-- A partial aggregate whose entries are keyed by their own names. -/
def WfNames (a : Agg) : Prop := WfW a.weapons ∧ WfK a.killers

theorem wfNames_emptyAgg : WfNames emptyAgg :=
  ⟨fun _ _ h => by simp [emptyAgg] at h, fun _ _ h => by simp [emptyAgg] at h⟩

theorem mergeWeaponMaps_assoc (a b c : WMap) :
    mergeWeaponMaps (mergeWeaponMaps a b) c = mergeWeaponMaps a (mergeWeaponMaps b c) := by
  funext key
  simp only [mergeWeaponMaps]
  rcases a key with _ | av <;> rcases b key with _ | bv <;> rcases c key with _ | cv <;>
    simp [add_assoc]

theorem mergeKWMaps_assoc (a b c : String → Option Nat) :
    mergeKWMaps (mergeKWMaps a b) c = mergeKWMaps a (mergeKWMaps b c) := by
  funext key
  simp only [mergeKWMaps]
  rcases a key with _ | av <;> rcases b key with _ | bv <;> rcases c key with _ | cv <;>
    simp [add_assoc]

theorem mergeKillerMaps_assoc (a b c : KMap) :
    mergeKillerMaps (mergeKillerMaps a b) c = mergeKillerMaps a (mergeKillerMaps b c) := by
  funext key
  simp only [mergeKillerMaps]
  rcases a key with _ | av <;> rcases b key with _ | bv <;> rcases c key with _ | cv <;>
    simp [add_assoc, mergeKWMaps_assoc]

theorem merge_assoc (a b c : Agg) : merge (merge a b) c = merge a (merge b c) := by
  simp [merge, Agg.mk.injEq, add_assoc, mergeWeaponMaps_assoc, mergeKillerMaps_assoc]

theorem mergeWeaponMaps_comm {a b : WMap} (ha : WfW a) (hb : WfW b) :
    mergeWeaponMaps a b = mergeWeaponMaps b a := by
  funext key
  simp only [mergeWeaponMaps]
  rcases hka : a key with _ | av <;> rcases hkb : b key with _ | bv
  · rfl
  · obtain ⟨bn, bd, bacc⟩ := bv
    have := hb key _ hkb
    simp_all
  · obtain ⟨an, ad, aacc⟩ := av
    have := ha key _ hka
    simp_all
  · have h1 := ha key _ hka
    have h2 := hb key _ hkb
    simp_all [add_comm]

theorem mergeKWMaps_comm (a b : String → Option Nat) :
    mergeKWMaps a b = mergeKWMaps b a := by
  funext key
  simp only [mergeKWMaps]
  rcases a key with _ | av <;> rcases b key with _ | bv <;> simp [add_comm]

theorem mergeKillerMaps_comm {a b : KMap} (ha : WfK a) (hb : WfK b) :
    mergeKillerMaps a b = mergeKillerMaps b a := by
  funext key
  simp only [mergeKillerMaps]
  rcases hka : a key with _ | av <;> rcases hkb : b key with _ | bv
  · rfl
  · obtain ⟨bn, bd, bw⟩ := bv
    have := hb key _ hkb
    simp_all
  · obtain ⟨an, ad, aw⟩ := av
    have := ha key _ hka
    simp_all
  · have h1 := ha key _ hka
    have h2 := hb key _ hkb
    simp_all [add_comm, mergeKWMaps_comm]

theorem merge_comm {a b : Agg} (ha : WfNames a) (hb : WfNames b) :
    merge a b = merge b a := by
  simp [merge, Agg.mk.injEq, add_comm,
    mergeWeaponMaps_comm ha.1 hb.1, mergeKillerMaps_comm ha.2 hb.2]

theorem merge_wf {a b : Agg} (ha : WfNames a) (_hb : WfNames b) :
    WfNames (merge a b) := by
  constructor
  · intro k v hv
    simp only [merge, mergeWeaponMaps] at hv
    rcases hka : a.weapons k with _ | av <;> rcases hkb : b.weapons k with _ | bv <;>
      rw [hka, hkb] at hv <;> simp at hv
    · simp [← hv]
    · simp [← hv, ha.1 k _ hka]
    · simp [← hv, ha.1 k _ hka]
  · intro k v hv
    simp only [merge, mergeKillerMaps] at hv
    rcases hka : a.killers k with _ | av <;> rcases hkb : b.killers k with _ | bv <;>
      rw [hka, hkb] at hv <;> simp at hv
    · simp [← hv]
    · simp [← hv, ha.2 k _ hka]
    · simp [← hv, ha.2 k _ hka]

/-- Folding `merge` from the identity aggregate is invariant under any
permutation of well-formed inputs; with associativity this covers every
reduction tree rayon may choose. -/
theorem foldl_merge_perm {l1 l2 : List Agg} (p : l1.Perm l2) :
    ∀ s : Agg, (∀ x ∈ l1, WfNames x) → WfNames s →
      l1.foldl merge s = l2.foldl merge s := by
  induction p with
  | nil => intro s _ _; rfl
  | cons x p ih =>
    intro s h hs
    have hx : WfNames x := h x (List.mem_cons_self _ _)
    simp only [List.foldl_cons]
    exact ih (merge s x) (fun y hy => h y (List.mem_cons_of_mem _ hy)) (merge_wf hs hx)
  | swap x y t =>
    intro s h hs
    have hx : WfNames x := h x (List.mem_cons_of_mem _ (List.mem_cons_self _ _))
    have hy : WfNames y := h y (List.mem_cons_self _ _)
    simp only [List.foldl_cons]
    have : merge (merge s y) x = merge (merge s x) y := by
      rw [merge_assoc, merge_assoc, merge_comm hy hx]
    rw [this]
  | trans p1 p2 ih1 ih2 =>
    intro s h hs
    rw [ih1 s h hs]
    exact ih2 s (fun y hy => h y (p1.mem_iff.2 hy)) hs

/-! ### Comparator facts -/

theorem keyLe_iff (key : α → Nat) (name : α → String) (x y : α) :
    keyLe key name x y = true ↔
      key y < key x ∨ (key x = key y ∧ strLe (name x) (name y) = true) := by
  simp [keyLe]

theorem keyLe_total (key : α → Nat) (name : α → String) (x y : α) :
    keyLe key name x y = true ∨ keyLe key name y x = true := by
  rcases lt_trichotomy (key x) (key y) with h | h | h
  · right; exact (keyLe_iff key name y x).2 (Or.inl h)
  · rcases strLe_total (name x) (name y) with hs | hs
    · left; exact (keyLe_iff key name x y).2 (Or.inr ⟨h, hs⟩)
    · right; exact (keyLe_iff key name y x).2 (Or.inr ⟨h.symm, hs⟩)
  · left; exact (keyLe_iff key name x y).2 (Or.inl h)

theorem keyLe_trans {key : α → Nat} {name : α → String} {x y z : α}
    (h1 : keyLe key name x y = true) (h2 : keyLe key name y z = true) :
    keyLe key name x z = true := by
  rcases (keyLe_iff key name x y).1 h1 with h1 | ⟨h1, h1s⟩ <;>
    rcases (keyLe_iff key name y z).1 h2 with h2 | ⟨h2, h2s⟩
  · exact (keyLe_iff key name x z).2 (Or.inl (lt_trans h2 h1))
  · exact (keyLe_iff key name x z).2 (Or.inl (h2 ▸ h1))
  · exact (keyLe_iff key name x z).2 (Or.inl (lt_of_lt_of_eq h2 h1.symm))
  · exact (keyLe_iff key name x z).2 (Or.inr ⟨h1.trans h2, strLe_trans h1s h2s⟩)

theorem keyLe_antisymm_keys {key : α → Nat} {name : α → String} {x y : α}
    (h1 : keyLe key name x y = true) (h2 : keyLe key name y x = true) :
    key x = key y ∧ name x = name y := by
  rcases (keyLe_iff key name x y).1 h1 with h1 | ⟨h1, h1s⟩ <;>
    rcases (keyLe_iff key name y x).1 h2 with h2 | ⟨h2, h2s⟩
  · exact absurd (lt_trans h1 h2) (lt_irrefl _)
  · exact absurd (h2 ▸ h1) (lt_irrefl _)
  · exact absurd (h1 ▸ h2) (lt_irrefl _)
  · exact ⟨h1, strLe_antisymm h1s h2s⟩

/-! ### The orders the specification states for the ranked lists -/

/-- Spec order for ranked weapons: `kill_count` descending, ties broken by
name ascending. -/
def SpecWeaponOrder (a b : Weapon) : Prop :=
  b.amount_deaths < a.amount_deaths ∨
    (a.amount_deaths = b.amount_deaths ∧ strLe a.name b.name = true)

/-- Spec order for ranked killers: `kill_count` descending, ties broken by
name ascending. -/
def SpecKillerOrder (a b : Killer) : Prop :=
  b.deaths < a.deaths ∨ (a.deaths = b.deaths ∧ strLe a.name b.name = true)

/-- Spec order for the own weapon entries of a killer: count descending, ties
broken by weapon name ascending. -/
def SpecPairOrder (a b : String × Nat) : Prop :=
  b.2 < a.2 ∨ (a.2 = b.2 ∧ strLe a.1 b.1 = true)

/-! ### Every produced aggregate is keyed by its own names -/

theorem process_weapon_record_wf {parseF : String → Option ℚ}
    {record : List String} {m m2 : WMap}
    (hm : WfW m) (h : process_weapon_record parseF record m = some m2) : WfW m2 := by
  unfold process_weapon_record at h
  rcases hg : recordGet record 0 with _ | wn <;> rw [hg] at h
  · cases h
  · dsimp only at h
    rcases hmw : m wn with _ | current <;> rw [hmw] at h <;>
      obtain rfl := Option.some.inj h <;> intro k v hv <;> dsimp only at hv
    · by_cases hk : k = wn
      · subst hk
        rw [if_pos rfl] at hv
        obtain rfl := Option.some.inj hv
        rfl
      · rw [if_neg hk] at hv
        exact hm k v hv
    · by_cases hk : k = wn
      · subst hk
        rw [if_pos rfl] at hv
        obtain rfl := Option.some.inj hv
        exact hm _ current hmw
      · rw [if_neg hk] at hv
        exact hm k v hv

theorem process_killer_record_wf {record : List String} {m m2 : KMap}
    (hm : WfK m) (h : process_killer_record record m = some m2) : WfK m2 := by
  unfold process_killer_record at h
  rcases hg1 : recordGet record 1 with _ | kn <;> rw [hg1] at h
  · cases h
  · dsimp only at h
    rcases hg0 : recordGet record 0 with _ | wn <;> rw [hg0] at h
    · cases h
    · dsimp only at h
      rcases hmk : m kn with _ | current <;> rw [hmk] at h <;>
        obtain rfl := Option.some.inj h <;> intro k v hv <;> dsimp only at hv
      · by_cases hk : k = kn
        · subst hk
          rw [if_pos rfl] at hv
          obtain rfl := Option.some.inj hv
          rfl
        · rw [if_neg hk] at hv
          exact hm k v hv
      · by_cases hk : k = kn
        · subst hk
          rw [if_pos rfl] at hv
          obtain rfl := Option.some.inj hv
          exact hm _ current hmk
        · rw [if_neg hk] at hv
          exact hm k v hv

theorem processRecord_parts {parseF : String → Option ℚ}
    {record : List String} {s s2 : WMap × KMap}
    (h : processRecord parseF record s = some s2) :
    process_weapon_record parseF record s.1 = some s2.1 ∧
      process_killer_record record s.2 = some s2.2 := by
  unfold processRecord at h
  rcases hw : process_weapon_record parseF record s.1 with _ | w2 <;> rw [hw] at h
  · cases h
  · rcases hk : process_killer_record record s.2 with _ | k2 <;> rw [hk] at h
    · cases h
    · obtain rfl := Option.some.inj h
      exact ⟨rfl, rfl⟩

/-- The file aggregation only ever stores entries under their own names,
which is the invariant commutativity of `merge` rests on. -/
theorem process_rows_wf (parseF : String → Option ℚ) :
    ∀ (rows : List (List String)) (s s2 : WMap × KMap),
      process_rows parseF rows s = some s2 → WfW s.1 → WfK s.2 →
        WfW s2.1 ∧ WfK s2.2
  | [], s, s2, h, hw, hk => by
    obtain rfl := Option.some.inj h
    exact ⟨hw, hk⟩
  | r :: rest, s, s2, h, hw, hk => by
    unfold process_rows at h
    rcases hp : processRecord parseF r s with _ | s1 <;> rw [hp] at h
    · cases h
    · obtain ⟨hpw, hpk⟩ := processRecord_parts hp
      exact process_rows_wf parseF rest s1 s2 h
        (process_weapon_record_wf hw hpw) (process_killer_record_wf hk hpk)

/-- Every partial aggregate `process_file` emits is well-formed. -/
theorem process_file_wf {parseF : String → Option ℚ}
    {rows : List (List String)} {a : Agg}
    (h : process_file parseF rows = some a) : WfNames a := by
  unfold process_file at h
  rcases hr : process_rows parseF rows (fun _ => none, fun _ => none) with _ | s2 <;>
    rw [hr] at h
  · cases h
  · obtain ⟨w2, k2⟩ := s2
    obtain rfl := Option.some.inj h
    have hwf := process_rows_wf parseF rows _ _ hr
      (fun k v hv => by cases hv) (fun k v hv => by cases hv)
    exact ⟨hwf.1, hwf.2⟩

/-! ### Pointwise readings of the aggregate maps -/

/-- Kill count stored for key `k` (0 if absent). -/
def killsAt (m : WMap) (k : String) : Nat :=
  match m k with
  | some v => v.amount_deaths
  | none => 0

/-- Accumulated distance stored for key `k` (0 if absent). -/
def accAt (m : WMap) (k : String) : ℚ :=
  match m k with
  | some v => v.accumulator_distance
  | none => 0

/-- Kill count stored for killer `k` (0 if absent). -/
def killerDeathsAt (m : KMap) (k : String) : Nat :=
  match m k with
  | some v => v.amount_deaths
  | none => 0

/-! ### Claim C1: binary32 distance accumulation is not associative

The source accumulates `accumulator_distance` in `f32` (`models.rs:8`),
and the reduce closure merges two distance sums with `f32 +=`
(`main.rs:337`).  IEEE-754 requires each addition to return the exact sum
rounded to nearest binary32 value, ties to even.  `fl32` is exactly that
rounding (24 significant bits; exponent overflow cannot occur at the
magnitudes considered, far below the f32 maximum), so `addF32` is a
faithful model of the `f32 +` the merge performs — and it is not
associative, refuting the claimed field-by-field identity of the merged
`distance_sum` values across reduction trees. -/

/-- Round a rational to the nearest integer, ties to even. -/
def rndEvenInt (q : ℚ) : ℤ :=
  if q - ⌊q⌋ < 1 / 2 then ⌊q⌋
  else if 1 / 2 < q - ⌊q⌋ then ⌊q⌋ + 1
  else if ⌊q⌋ % 2 = 0 then ⌊q⌋ else ⌊q⌋ + 1

/-- Round a rational to the nearest binary32 value (24 significant bits,
round to nearest, ties to even; exponent range taken as unbounded, which
agrees with IEEE-754 binary32 on every magnitude this file considers). -/
def fl32 (x : ℚ) : ℚ :=
  if 0 < x then
    (rndEvenInt (x * 2 ^ ((23 : ℤ) - Int.log 2 x)) : ℚ) * 2 ^ (Int.log 2 x - 23)
  else if x < 0 then
    -((rndEvenInt (-x * 2 ^ ((23 : ℤ) - Int.log 2 (-x))) : ℚ) * 2 ^ (Int.log 2 (-x) - 23))
  else 0

/-- Binary32 addition: the exact sum, correctly rounded (IEEE-754). -/
def addF32 (a b : ℚ) : ℚ := fl32 (a + b)

/-- The weapon-map merge of the reduce closure with the distance sums
added by the `f32 +=` of `main.rs:337`, modelled faithfully by `addF32`
instead of the exact rational addition of `mergeWeaponMaps`. -/
def mergeWeaponMapsF32 (w1 w2 : WMap) : WMap := fun key =>
  match w1 key, w2 key with
  | some current, some value =>
    some ⟨current.name, current.amount_deaths + value.amount_deaths,
      addF32 current.accumulator_distance value.accumulator_distance⟩
  | some current, none => some current
  | none, some value => some ⟨key, value.amount_deaths, value.accumulator_distance⟩
  | none, none => none

/-- A weapon map holding the f32 distance sum `2 ^ 24` (reachable: 2^24
events of rounded distance 1.00 accumulate exactly to `2 ^ 24` in f32). -/
def wa24 : WMap := fun k => if k = "Axe" then some ⟨"Axe", 1, 2 ^ 24⟩ else none

/-- A weapon map holding the f32 distance sum `1.0` (one event of rounded
distance 1.00). -/
def wb1 : WMap := fun k => if k = "Axe" then some ⟨"Axe", 1, 1⟩ else none

/-- A second weapon map holding the f32 distance sum `1.0`. -/
def wc1 : WMap := fun k => if k = "Axe" then some ⟨"Axe", 1, 1⟩ else none

theorem int_log_eq {r : ℚ} {e : ℤ} (hr : 0 < r) (h1 : ((2 : ℕ) : ℚ) ^ e ≤ r)
    (h2 : r < ((2 : ℕ) : ℚ) ^ (e + 1)) : Int.log 2 r = e := by
  have ha : e ≤ Int.log 2 r := (Int.zpow_le_iff_le_log (by norm_num) hr).1 h1
  have hb : Int.log 2 r < e + 1 := (Int.lt_zpow_iff_log_lt (by norm_num) hr).1 h2
  omega

theorem fl32_of_pos {x : ℚ} (hx : 0 < x) :
    fl32 x = (rndEvenInt (x * 2 ^ ((23 : ℤ) - Int.log 2 x)) : ℚ)
      * 2 ^ (Int.log 2 x - 23) := by
  unfold fl32
  rw [if_pos hx]

/-- In binary32, `2 ^ 24 + 1` is a tie between `2 ^ 24` and `2 ^ 24 + 2`
and rounds to the even neighbour `2 ^ 24`. -/
theorem fl32_16777217 : fl32 (16777217 : ℚ) = 16777216 := by
  rw [fl32_of_pos (by norm_num),
    show Int.log 2 (16777217 : ℚ) = 24 from
      int_log_eq (by norm_num) (by norm_num) (by norm_num),
    show (16777217 : ℚ) * 2 ^ ((23 : ℤ) - 24) = 16777217 / 2 by norm_num]
  have hr : rndEvenInt (16777217 / 2 : ℚ) = 8388608 := by
    unfold rndEvenInt
    have hf : ⌊(16777217 / 2 : ℚ)⌋ = 8388608 := by
      rw [Int.floor_eq_iff]
      constructor <;> norm_num
    rw [hf]
    norm_num
  rw [hr]
  norm_num

/-- In binary32, `2 ^ 24 + 2` is exactly representable. -/
theorem fl32_16777218 : fl32 (16777218 : ℚ) = 16777218 := by
  rw [fl32_of_pos (by norm_num),
    show Int.log 2 (16777218 : ℚ) = 24 from
      int_log_eq (by norm_num) (by norm_num) (by norm_num),
    show (16777218 : ℚ) * 2 ^ ((23 : ℤ) - 24) = 8388609 by norm_num]
  have hr : rndEvenInt (8388609 : ℚ) = 8388609 := by
    unfold rndEvenInt
    have hf : ⌊(8388609 : ℚ)⌋ = 8388609 := by
      rw [Int.floor_eq_iff]
      constructor <;> norm_num
    rw [hf]
    norm_num
  rw [hr]
  norm_num

/-- In binary32, `2` is exactly representable. -/
theorem fl32_two : fl32 (2 : ℚ) = 2 := by
  rw [fl32_of_pos (by norm_num),
    show Int.log 2 (2 : ℚ) = 1 from
      int_log_eq (by norm_num) (by norm_num) (by norm_num),
    show (2 : ℚ) * 2 ^ ((23 : ℤ) - 1) = 2 ^ 23 by norm_num]
  have hr : rndEvenInt (2 ^ 23 : ℚ) = 2 ^ 23 := by
    unfold rndEvenInt
    have hf : ⌊(2 ^ 23 : ℚ)⌋ = 2 ^ 23 := by
      rw [Int.floor_eq_iff]
      constructor <;> norm_num
    rw [hf]
    norm_num
  rw [hr]
  norm_num

/-- C1. The claim is the specified behaviour — merging must be associative
and commutative field by field, including every `distance_sum` value, for
every reduction tree — and the code violates it: the reduce closure adds
distance sums with `f32 +=` (`main.rs:337`), and binary32 addition is not
associative.  Evaluated at the reachable f32 distance sums `2 ^ 24`, `1`,
`1` for one weapon, the two groupings of the merge produce `2 ^ 24`
versus `2 ^ 24 + 2`, so different rayon reduction trees yield different
global aggregates.  (The count fields and the key structure do merge
associatively and commutatively — see `merge_assoc`, `merge_comm` — only
the float distance sums break the invariant.) -/
theorem merge_f32_distance_not_assoc :
    addF32 (addF32 (2 ^ 24) 1) 1 = 2 ^ 24 ∧
    addF32 (2 ^ 24) (addF32 1 1) = 2 ^ 24 + 2 ∧
    accAt (mergeWeaponMapsF32 (mergeWeaponMapsF32 wa24 wb1) wc1) "Axe" = 2 ^ 24 ∧
    accAt (mergeWeaponMapsF32 wa24 (mergeWeaponMapsF32 wb1 wc1)) "Axe" = 2 ^ 24 + 2 ∧
    mergeWeaponMapsF32 (mergeWeaponMapsF32 wa24 wb1) wc1
      ≠ mergeWeaponMapsF32 wa24 (mergeWeaponMapsF32 wb1 wc1) := by
  have h1 : addF32 ((2 : ℚ) ^ 24) 1 = 2 ^ 24 := by
    unfold addF32
    rw [show ((2 : ℚ) ^ 24 + 1 : ℚ) = 16777217 by norm_num, fl32_16777217]
    norm_num
  have ha : addF32 (addF32 ((2 : ℚ) ^ 24) 1) 1 = 2 ^ 24 := by
    rw [h1]
    exact h1
  have hbc : addF32 (1 : ℚ) 1 = 2 := by
    unfold addF32
    rw [show ((1 : ℚ) + 1 : ℚ) = 2 by norm_num, fl32_two]
  have hb : addF32 ((2 : ℚ) ^ 24) (addF32 1 1) = 2 ^ 24 + 2 := by
    rw [hbc]
    unfold addF32
    rw [show ((2 : ℚ) ^ 24 + 2 : ℚ) = 16777218 by norm_num, fl32_16777218]
  have hm1 : accAt (mergeWeaponMapsF32 (mergeWeaponMapsF32 wa24 wb1) wc1) "Axe"
      = addF32 (addF32 ((2 : ℚ) ^ 24) 1) 1 := by
    simp [accAt, mergeWeaponMapsF32, wa24, wb1, wc1]
  have hm2 : accAt (mergeWeaponMapsF32 wa24 (mergeWeaponMapsF32 wb1 wc1)) "Axe"
      = addF32 ((2 : ℚ) ^ 24) (addF32 1 1) := by
    simp [accAt, mergeWeaponMapsF32, wa24, wb1, wc1]
  refine ⟨ha, hb, hm1.trans ha, hm2.trans hb, ?_⟩
  intro hEq
  have := (hm1.symm.trans (congrArg (fun m => accAt m "Axe") hEq)).trans hm2
  rw [ha, hb] at this
  norm_num at this

/-! ### Claim C3 -/

/-- C3. The ranked weapon list is the full weapon set sorted by
`kill_count` descending with ties broken by name ascending, truncated to
the first 10; with fewer than 10 distinct weapons it is correspondingly
shorter (never an error); and two weapons `"Axe"` and `"Bat"` with equal
`kill_count` rank `"Axe"` first — under either iteration order. -/
theorem top_weapons_ranked (entries : List RowWeapon) (total_kills : Nat) :
    (∃ ranked : List Weapon,
        ranked.Perm (entries.map (mkWeapon total_kills)) ∧
        ranked.Pairwise SpecWeaponOrder ∧
        calculate_top_weapons entries total_kills = ranked.take 10) ∧
    (calculate_top_weapons entries total_kills).length = min 10 entries.length ∧
    (calculate_top_weapons [⟨"Axe", 1, 0⟩, ⟨"Bat", 1, 0⟩] 2).map Weapon.name
      = ["Axe", "Bat"] ∧
    (calculate_top_weapons [⟨"Bat", 1, 0⟩, ⟨"Axe", 1, 0⟩] 2).map Weapon.name
      = ["Axe", "Bat"] := by
  refine ⟨⟨sortBy weaponLe (entries.map (mkWeapon total_kills)),
    sortBy_perm _ _, ?_, rfl⟩, ?_, by decide, by decide⟩
  · have h := @sortBy_pairwise _ weaponLe
      (keyLe_total Weapon.amount_deaths Weapon.name)
      (fun h1 h2 => keyLe_trans h1 h2) (entries.map (mkWeapon total_kills))
    refine h.imp ?_
    intro x y hxy
    rcases (keyLe_iff Weapon.amount_deaths Weapon.name x y).1 hxy with h1 | ⟨h1, hs⟩
    · exact Or.inl h1
    · exact Or.inr ⟨h1, hs⟩
  · simp [calculate_top_weapons, List.length_take, length_sortBy]

/-! ### Claim C4 -/

/-- C4. The `top_weapons` of each killer is its own weapon-count entry set
sorted by count descending with name-ascending tie-break, truncated to at
most 3, each entry carrying `usage_percentage = count / kill_count * 100`
rounded to 2 decimals; the killer list itself is the full killer set sorted
by `kill_count` descending with name-ascending tie-break, truncated to the
first 10. -/
theorem top_killers_ranked (entries : List RowKillerView) :
    (∃ ranked : List Killer,
        ranked.Perm (entries.map mkKiller) ∧
        ranked.Pairwise SpecKillerOrder ∧
        calculate_top_killers entries = ranked.take 10) ∧
    (calculate_top_killers entries).length = min 10 entries.length ∧
    ∀ v : RowKillerView,
      ∃ rankedW : List (String × Nat),
        rankedW.Perm v.weapons ∧
        rankedW.Pairwise SpecPairOrder ∧
        (mkKiller v).name = v.name ∧
        (mkKiller v).deaths = v.amount_deaths ∧
        (mkKiller v).weapons = (rankedW.take 3).map
          (fun p => (p.1, round2q ((p.2 : ℚ) / (v.amount_deaths : ℚ) * 100))) ∧
        (mkKiller v).weapons.length ≤ 3 := by
  refine ⟨⟨sortBy killerLe (entries.map mkKiller), sortBy_perm _ _, ?_, rfl⟩, ?_, ?_⟩
  · have h := @sortBy_pairwise _ killerLe
      (keyLe_total Killer.deaths Killer.name)
      (fun h1 h2 => keyLe_trans h1 h2) (entries.map mkKiller)
    refine h.imp ?_
    intro x y hxy
    rcases (keyLe_iff Killer.deaths Killer.name x y).1 hxy with h1 | ⟨h1, hs⟩
    · exact Or.inl h1
    · exact Or.inr ⟨h1, hs⟩
  · simp [calculate_top_killers, List.length_take, length_sortBy]
  · intro v
    refine ⟨sortBy killerWeaponLe v.weapons, sortBy_perm _ _, ?_, rfl, rfl, rfl, ?_⟩
    · have h := @sortBy_pairwise _ killerWeaponLe
        (keyLe_total Prod.snd Prod.fst)
        (fun h1 h2 => keyLe_trans h1 h2) v.weapons
      refine h.imp ?_
      intro x y hxy
      rcases (keyLe_iff Prod.snd Prod.fst x y).1 hxy with h1 | ⟨h1, hs⟩
      · exact Or.inl h1
      · exact Or.inr ⟨h1, hs⟩
    · simp only [mkKiller, List.length_map]
      exact (List.length_take_le 3 _)

/-! ### Determinism of the ranking (claim C9) -/

theorem enumerates_perm {β : Type} {m : String → Option β}
    {l1 l2 : List (String × β)} (h1 : Enumerates m l1) (h2 : Enumerates m l2) :
    l1.Perm l2 := by
  refine (List.perm_ext_iff_of_nodup (List.Nodup.of_map Prod.fst h1.1)
    (List.Nodup.of_map Prod.fst h2.1)).2 ?_
  rintro ⟨k, v⟩
  rw [← h1.2 k v, ← h2.2 k v]

theorem enumerates_lookup {β : Type} {m : String → Option β}
    {l : List (String × β)} (h : Enumerates m l) {p : String × β} (hp : p ∈ l) :
    m p.1 = some p.2 := by
  obtain ⟨k, v⟩ := p
  exact (h.2 k v).2 hp

/-- On a name-well-formed weapon map, the `Weapon`s built from any
iteration have pairwise distinct names (they inherit the distinct keys). -/
theorem weapon_names_nodup {wm : WMap} (hw : WfW wm)
    {l : List (String × RowWeapon)} (h : Enumerates wm l) (t : Nat) :
    (((l.map Prod.snd).map (mkWeapon t)).map Weapon.name).Nodup := by
  have e1 : ((l.map Prod.snd).map (mkWeapon t)).map Weapon.name = l.map Prod.fst := by
    simp only [List.map_map]
    refine List.map_congr_left ?_
    intro p hp
    have hname := hw p.1 p.2 (enumerates_lookup h hp)
    simpa [Function.comp, mkWeapon] using hname
  rw [e1]
  exact h.1

theorem top_weapons_deterministic {wm : WMap} (hw : WfW wm)
    {l1 l2 : List (String × RowWeapon)}
    (h1 : Enumerates wm l1) (h2 : Enumerates wm l2) (t : Nat) :
    calculate_top_weapons (l1.map Prod.snd) t
      = calculate_top_weapons (l2.map Prod.snd) t := by
  unfold calculate_top_weapons
  congr 1
  refine sortBy_eq_of_perm (keyLe_total Weapon.amount_deaths Weapon.name)
    (fun ha hb => keyLe_trans ha hb)
    (((enumerates_perm h1 h2).map Prod.snd).map (mkWeapon t)) ?_
  intro a b ha hb hab hba
  obtain ⟨-, hn⟩ := keyLe_antisymm_keys hab hba
  exact List.inj_on_of_nodup_map (weapon_names_nodup hw h1 t) ha hb hn

/-- Two readings of the same killer map entry produce the same ranked
`Killer`: the name tie-break of the inner sort erases the iteration
order of the inner map. -/
theorem mkKiller_views_eq {p : String × RowKiller} {r1 r2 : RowKillerView}
    (h1 : ViewsEntry p r1) (h2 : ViewsEntry p r2) : mkKiller r1 = mkKiller r2 := by
  obtain ⟨hn1, hd1, hw1⟩ := h1
  obtain ⟨hn2, hd2, hw2⟩ := h2
  have hsort : sortBy killerWeaponLe r1.weapons = sortBy killerWeaponLe r2.weapons := by
    refine sortBy_eq_of_perm (keyLe_total Prod.snd Prod.fst)
      (fun ha hb => keyLe_trans ha hb) (enumerates_perm hw1 hw2) ?_
    intro a b _ _ hab hba
    obtain ⟨hk, hn⟩ := keyLe_antisymm_keys hab hba
    exact Prod.ext hn hk
  simp [mkKiller, hsort, hn1, hn2, hd1, hd2]

theorem killer_view_names {kl : List (String × RowKiller)} {v : List RowKillerView}
    (hf : List.Forall₂ ViewsEntry kl v) (hn : ∀ p ∈ kl, p.2.name = p.1) :
    (v.map mkKiller).map Killer.name = kl.map Prod.fst := by
  induction hf with
  | nil => rfl
  | @cons p rl kl2 v2 h htail ih =>
    simp only [List.map_cons, List.cons.injEq]
    constructor
    · show (mkKiller rl).name = p.1
      have hr : (mkKiller rl).name = rl.name := rfl
      rw [hr, h.1, hn p (List.mem_cons_self _ _)]
    · exact ih (fun q hq => hn q (List.mem_cons_of_mem _ hq))

theorem top_killers_deterministic {km : KMap} (hk : WfK km)
    {v1 v2 : List RowKillerView}
    (hv1 : ViewsKillerMap km v1) (hv2 : ViewsKillerMap km v2) :
    calculate_top_killers v1 = calculate_top_killers v2 := by
  obtain ⟨kl1, he1, hf1⟩ := hv1
  obtain ⟨kl2, he2, hf2⟩ := hv2
  have hr : Relator.RightUnique (fun (p : String × RowKiller) (c : Killer) =>
      ∃ rl, ViewsEntry p rl ∧ c = mkKiller rl) := by
    rintro p c1 c2 ⟨r1, hr1, rfl⟩ ⟨r2, hr2, rfl⟩
    exact mkKiller_views_eq hr1 hr2
  have hf1m : List.Forall₂ (fun p c => ∃ rl, ViewsEntry p rl ∧ c = mkKiller rl)
      kl1 (v1.map mkKiller) :=
    List.forall₂_map_right_iff.2 (hf1.imp (fun a b hab => ⟨b, hab, rfl⟩))
  have hf2m : List.Forall₂ (fun p c => ∃ rl, ViewsEntry p rl ∧ c = mkKiller rl)
      kl2 (v2.map mkKiller) :=
    List.forall₂_map_right_iff.2 (hf2.imp (fun a b hab => ⟨b, hab, rfl⟩))
  have hperm : (v1.map mkKiller).Perm (v2.map mkKiller) :=
    List.rel_perm_imp hr hf1m hf2m (enumerates_perm he1 he2)
  unfold calculate_top_killers
  congr 1
  refine sortBy_eq_of_perm (keyLe_total Killer.deaths Killer.name)
    (fun ha hb => keyLe_trans ha hb) hperm ?_
  intro a b ha hb hab hba
  obtain ⟨-, hn⟩ := keyLe_antisymm_keys hab hba
  have hnames : ((v1.map mkKiller).map Killer.name).Nodup := by
    rw [killer_view_names hf1 (fun p hp => hk p.1 p.2 (enumerates_lookup he1 hp))]
    exact he1.1
  exact List.inj_on_of_nodup_map hnames ha hb hn

/-! ### Claim C9 -/

/-- C9. The ranking is deterministic: two runs over the same global
aggregate — each seeing the unordered weapon and killer maps in an
arbitrary iteration order, and the inner weapon map of each killer in an
arbitrary iteration order — produce identical ranked weapon and killer
lists, tie order included.  The output depends only on the sort keys
(count descending, name ascending), never on map iteration order. -/
theorem ranking_deterministic {wm : WMap} {km : KMap} (t : Nat)
    (hw : WfW wm) (hk : WfK km)
    {l1 l2 : List (String × RowWeapon)}
    (h1 : Enumerates wm l1) (h2 : Enumerates wm l2)
    {v1 v2 : List RowKillerView}
    (hv1 : ViewsKillerMap km v1) (hv2 : ViewsKillerMap km v2) :
    calculate_top_weapons (l1.map Prod.snd) t
        = calculate_top_weapons (l2.map Prod.snd) t ∧
    calculate_top_killers v1 = calculate_top_killers v2 :=
  ⟨top_weapons_deterministic hw h1 h2 t, top_killers_deterministic hk hv1 hv2⟩

/-- A two-key map enumeration, for the witnesses. -/
theorem enumerates_pair {β : Type} (k1 k2 : String) (w1 w2 : β) (hne : k1 ≠ k2) :
    Enumerates (fun k => if k = k1 then some w1 else if k = k2 then some w2 else none)
      [(k1, w1), (k2, w2)] := by
  refine ⟨by simp [hne], ?_⟩
  intro k v
  dsimp only
  constructor
  · intro hkv
    by_cases ha : k = k1
    · subst ha
      rw [if_pos rfl] at hkv
      obtain rfl : w1 = v := Option.some.inj hkv
      simp
    · by_cases hb : k = k2
      · subst hb
        rw [if_neg ha, if_pos rfl] at hkv
        obtain rfl : w2 = v := Option.some.inj hkv
        simp
      · rw [if_neg ha, if_neg hb] at hkv
        cases hkv
  · intro hmem
    rcases List.mem_cons.1 hmem with h | h
    · injection h with h1 h2
      subst h1; subst h2
      rw [if_pos rfl]
    · have h2 := List.mem_singleton.1 h
      injection h2 with h1 h2
      subst h1; subst h2
      rw [if_neg (Ne.symm hne), if_pos rfl]

/-- A one-key map enumeration, for the witnesses. -/
theorem enumerates_one {β : Type} (k1 : String) (w1 : β) :
    Enumerates (fun k => if k = k1 then some w1 else none) [(k1, w1)] := by
  refine ⟨by simp, ?_⟩
  intro k v
  dsimp only
  constructor
  · intro hkv
    by_cases ha : k = k1
    · subst ha
      rw [if_pos rfl] at hkv
      obtain rfl : w1 = v := Option.some.inj hkv
      simp
    · rw [if_neg ha] at hkv
      cases hkv
  · intro hmem
    have h2 := List.mem_singleton.1 hmem
    injection h2 with h1 h2
    subst h1; subst h2
    rw [if_pos rfl]

/-- An enumeration stays an enumeration under permutation (iteration order
is arbitrary). -/
theorem enumerates_of_perm {β : Type} {m : String → Option β}
    {l l2 : List (String × β)} (h : Enumerates m l) (p : l.Perm l2) :
    Enumerates m l2 :=
  ⟨((p.map Prod.fst).nodup_iff).1 h.1, fun k v => (h.2 k v).trans p.mem_iff⟩

/-- Concrete two-weapon map for the C9 witness. -/
def wmW : WMap := fun k =>
  if k = "Axe" then some ⟨"Axe", 1, 0⟩
  else if k = "Bat" then some ⟨"Bat", 1, 0⟩ else none

/-- Concrete per-killer weapon submap for the C9 witness. -/
def kwBob : String → Option Nat := fun w =>
  if w = "Axe" then some 1 else if w = "Gun" then some 2 else none

/-- Concrete killer map for the C9 witness. -/
def kmK : KMap := fun k => if k = "Bob" then some ⟨"Bob", 3, kwBob⟩ else none

theorem ranking_deterministic_witness :
    calculate_top_weapons
        (([(("Axe" : String), (⟨"Axe", 1, 0⟩ : RowWeapon)),
           ("Bat", ⟨"Bat", 1, 0⟩)]).map Prod.snd) 2
      = calculate_top_weapons
        (([(("Bat" : String), (⟨"Bat", 1, 0⟩ : RowWeapon)),
           ("Axe", ⟨"Axe", 1, 0⟩)]).map Prod.snd) 2 ∧
    calculate_top_killers [⟨"Bob", 3, [("Axe", 1), ("Gun", 2)]⟩]
      = calculate_top_killers [⟨"Bob", 3, [("Gun", 2), ("Axe", 1)]⟩] := by
  have hw : WfW wmW := by
    intro k v hv
    simp only [wmW] at hv
    split_ifs at hv with hc1 hc2
    · obtain rfl := Option.some.inj hv
      exact hc1.symm
    · obtain rfl := Option.some.inj hv
      exact hc2.symm
  have hk : WfK kmK := by
    intro k v hv
    simp only [kmK] at hv
    split_ifs at hv with hc1
    obtain rfl := Option.some.inj hv
    exact hc1.symm
  have henum : Enumerates kmK [("Bob", ⟨"Bob", 3, kwBob⟩)] := by
    unfold kmK
    exact enumerates_one "Bob" (⟨"Bob", 3, kwBob⟩ : RowKiller)
  have hkw1 : Enumerates kwBob [("Axe", 1), ("Gun", 2)] := by
    unfold kwBob
    exact enumerates_pair "Axe" "Gun" 1 2 (by decide)
  have h1 : Enumerates wmW
      [("Axe", ⟨"Axe", 1, 0⟩), ("Bat", ⟨"Bat", 1, 0⟩)] :=
    enumerates_pair "Axe" "Bat" (⟨"Axe", 1, 0⟩ : RowWeapon) ⟨"Bat", 1, 0⟩ (by decide)
  have h2 : Enumerates wmW
      [("Bat", ⟨"Bat", 1, 0⟩), ("Axe", ⟨"Axe", 1, 0⟩)] :=
    enumerates_of_perm h1
      (List.Perm.swap ("Bat", (⟨"Bat", 1, 0⟩ : RowWeapon)) ("Axe", ⟨"Axe", 1, 0⟩) [])
  have hv1 : ViewsKillerMap kmK [⟨"Bob", 3, [("Axe", 1), ("Gun", 2)]⟩] := by
    refine ⟨[("Bob", ⟨"Bob", 3, kwBob⟩)], henum, ?_⟩
    exact List.Forall₂.cons ⟨rfl, rfl, hkw1⟩ List.Forall₂.nil
  have hv2 : ViewsKillerMap kmK [⟨"Bob", 3, [("Gun", 2), ("Axe", 1)]⟩] := by
    refine ⟨[("Bob", ⟨"Bob", 3, kwBob⟩)], henum, ?_⟩
    refine List.Forall₂.cons ⟨rfl, rfl, ?_⟩ List.Forall₂.nil
    exact enumerates_of_perm hkw1 (List.Perm.swap ("Gun", 2) ("Axe", 1) [])
  exact @ranking_deterministic wmW kmK 2 hw hk _ _ h1 h2 _ _ hv1 hv2

theorem roundedDist_nonneg (kx ky vx vy : ℚ) : 0 ≤ roundedDist kx ky vx vy := by
  unfold roundedDist
  have hf : (0 : ℤ) ≤ ⌊Real.sqrt (((kx : ℝ) - vx) ^ 2 + ((ky : ℝ) - vy) ^ 2) * 100 + 1 / 2⌋ := by
    rw [Int.le_floor]
    have hs := Real.sqrt_nonneg (((kx : ℝ) - vx) ^ 2 + ((ky : ℝ) - vy) ^ 2)
    push_cast
    nlinarith
  exact div_nonneg (by exact_mod_cast hf) (by norm_num)

theorem calculate_distance_nonneg (a b c d : Option ℚ) :
    0 ≤ calculate_distance a b c d := by
  rcases a with _ | kx <;> rcases b with _ | ky <;> rcases c with _ | vx <;>
    rcases d with _ | vy <;>
    first
      | exact le_refl 0
      | exact roundedDist_nonneg _ _ _ _

/-! ### Claim C5 -/

/-- C5. With all four coordinates present the distance
contribution is `sqrt((kx-vx)^2 + (ky-vy)^2)` rounded to 2 decimals; with
any coordinate missing or unparsable it is exactly `0` and no error is
raised; killer `(0,0)` and victim `(3,4)` contribute exactly `5.00`; and
`process_weapon_record` adds exactly this contribution to the
`accumulator_distance` of the weapon, touching no other key. -/
theorem distance_rule :
    (∀ kx ky vx vy : ℚ,
        calculate_distance (some kx) (some ky) (some vx) (some vy)
          = ((⌊Real.sqrt (((kx : ℝ) - vx) ^ 2 + ((ky : ℝ) - vy) ^ 2) * 100 + 1 / 2⌋ : ℤ) : ℚ)
              / 100) ∧
    (∀ a b c d : Option ℚ, a = none ∨ b = none ∨ c = none ∨ d = none →
        calculate_distance a b c d = 0) ∧
    calculate_distance (some 0) (some 0) (some 3) (some 4) = 5 ∧
    (∀ parseF record (m : WMap) wn, recordGet record 0 = some wn →
        ∃ m2, process_weapon_record parseF record m = some m2 ∧
          accAt m2 wn = accAt m wn +
            calculate_distance ((recordGet record 3).bind parseF)
              ((recordGet record 4).bind parseF)
              ((recordGet record 10).bind parseF)
              ((recordGet record 11).bind parseF) ∧
          killsAt m2 wn = killsAt m wn + 1 ∧
          ∀ k, k ≠ wn → m2 k = m k) := by
  refine ⟨fun kx ky vx vy => rfl, ?_, ?_, ?_⟩
  · intro a b c d h
    rcases a with _ | kx <;> rcases b with _ | ky <;> rcases c with _ | vx <;>
      rcases d with _ | vy <;> first | rfl | simp at h
  · show roundedDist 0 0 3 4 = 5
    unfold roundedDist
    have h5 : Real.sqrt ((((0 : ℚ) : ℝ) - ((3 : ℚ) : ℝ)) ^ 2
        + (((0 : ℚ) : ℝ) - ((4 : ℚ) : ℝ)) ^ 2) = 5 := by
      push_cast
      rw [show ((0 : ℝ) - 3) ^ 2 + ((0 : ℝ) - 4) ^ 2 = 5 ^ 2 by norm_num]
      exact Real.sqrt_sq (by norm_num)
    rw [h5]
    have hfl : (⌊(5 : ℝ) * 100 + 1 / 2⌋ : ℤ) = 500 := by
      rw [Int.floor_eq_iff] <;> norm_num
    rw [hfl]
    norm_num
  · intro parseF record m wn h
    unfold process_weapon_record
    rw [h]
    dsimp only
    rcases hm : m wn with _ | current <;> dsimp only <;>
      refine ⟨_, rfl, ?_, ?_, ?_⟩
    · simp [accAt, hm]
    · simp [killsAt, hm]
    · intro k hk
      simp [hk]
    · simp [accAt, hm]
    · simp [killsAt, hm]
    · intro k hk
      simp [hk]

theorem distance_rule_witness :
    calculate_distance none (some 0) (some 0) (some 0) = 0 ∧
    calculate_distance (some 0) (some 0) (some 3) (some 4) = 5 ∧
    ∃ m2, process_weapon_record (fun _ => none) ["Knife", "Alice"] (fun _ => none)
        = some m2 ∧
      accAt m2 "Knife" = accAt (fun _ => none) "Knife" +
        calculate_distance none none none none :=
  ⟨distance_rule.2.1 none (some 0) (some 0) (some 0) (Or.inl rfl),
    distance_rule.2.2.1,
    by
      obtain ⟨m2, hm2, hacc, -, -⟩ :=
        distance_rule.2.2.2 (fun _ => none) ["Knife", "Alice"] (fun _ => none) "Knife" rfl
      exact ⟨m2, hm2, hacc⟩⟩

/-! ### Claim C7 -/

/-- Every stored weapon entry has at least one kill and a nonnegative
accumulated distance. -/
def WfCounts (m : WMap) : Prop :=
  ∀ k v, m k = some v → 1 ≤ v.amount_deaths ∧ 0 ≤ v.accumulator_distance

/-- C7. Weapon entries satisfy `kill_count ≥ 1` and `distance_sum ≥ 0`
at creation, after every per-row update and after every merge; hence the
`kill_count` every ranking division divides by is never zero. -/
theorem weapon_entry_invariant :
    WfCounts (fun _ => none) ∧
    (∀ parseF record m m2, WfCounts m →
        process_weapon_record parseF record m = some m2 → WfCounts m2) ∧
    (∀ m1 m2, WfCounts m1 → WfCounts m2 → WfCounts (mergeWeaponMaps m1 m2)) ∧
    (∀ m, WfCounts m → ∀ k v, m k = some v → v.amount_deaths ≠ 0) := by
  refine ⟨?_, ?_, ?_, ?_⟩
  · intro k v h
    simp at h
  · intro parseF record m m2 hm hp
    unfold process_weapon_record at hp
    rcases hg : recordGet record 0 with _ | wn
    · rw [hg] at hp; cases hp
    · rw [hg] at hp
      dsimp only at hp
      rcases hmw : m wn with _ | current <;> rw [hmw] at hp <;>
        obtain rfl := Option.some.inj hp <;> intro k v hv <;> dsimp only at hv
      · by_cases hk : k = wn
        · subst hk
          rw [if_pos rfl] at hv
          obtain rfl := Option.some.inj hv
          exact ⟨by norm_num, calculate_distance_nonneg _ _ _ _⟩
        · rw [if_neg hk] at hv
          exact hm k v hv
      · by_cases hk : k = wn
        · subst hk
          rw [if_pos rfl] at hv
          obtain rfl := Option.some.inj hv
          have hc := hm _ current hmw
          exact ⟨le_trans hc.1 (Nat.le_succ _),
            add_nonneg hc.2 (calculate_distance_nonneg _ _ _ _)⟩
        · rw [if_neg hk] at hv
          exact hm k v hv
  · intro m1 m2 h1 h2 k v hv
    unfold mergeWeaponMaps at hv
    rcases hk1 : m1 k with _ | v1 <;> rcases hk2 : m2 k with _ | v2 <;>
      rw [hk1, hk2] at hv
    · cases hv
    · obtain rfl := Option.some.inj hv
      have hb := h2 k v2 hk2
      exact ⟨hb.1, hb.2⟩
    · obtain rfl := Option.some.inj hv
      exact h1 k v1 hk1
    · obtain rfl := Option.some.inj hv
      have ha := h1 k v1 hk1
      have hb := h2 k v2 hk2
      exact ⟨le_trans ha.1 (Nat.le_add_right _ _), add_nonneg ha.2 hb.2⟩
  · intro m hm k v hv
    exact Nat.one_le_iff_ne_zero.1 (hm k v hv).1

theorem weapon_entry_invariant_witness :
    ∃ m2, process_weapon_record (fun _ => none) ["Knife", "Alice"] (fun _ => none)
        = some m2 ∧ WfCounts m2 :=
  ⟨_, rfl, weapon_entry_invariant.2.1 (fun _ => none) ["Knife", "Alice"]
    (fun _ => none) _ weapon_entry_invariant.1 rfl⟩

/-! ### Claim C8 -/

theorem process_weapon_record_missing {parseF : String → Option ℚ}
    {record : List String} (m : WMap) (h : recordGet record 0 = none) :
    process_weapon_record parseF record m = none := by
  unfold process_weapon_record
  rw [h]

theorem process_killer_record_missing {record : List String} (m : KMap)
    (h : recordGet record 1 = none) :
    process_killer_record record m = none := by
  unfold process_killer_record
  rw [h]

theorem process_weapon_record_isSome {parseF : String → Option ℚ}
    {record : List String} (m : WMap) {a : String}
    (h : recordGet record 0 = some a) :
    (process_weapon_record parseF record m).isSome := by
  unfold process_weapon_record
  rw [h]
  dsimp only
  rcases m a with _ | current <;> rfl

theorem process_killer_record_isSome {record : List String} (m : KMap)
    {a b : String} (h1 : recordGet record 1 = some b)
    (h0 : recordGet record 0 = some a) :
    (process_killer_record record m).isSome := by
  unfold process_killer_record
  rw [h1, h0]
  dsimp only
  rcases m b with _ | current <;> rfl

/-- C8. A row whose weapon cell (column 0) or killer cell (column 1) is
absent fails fatally (`std::process::exit(1)`, modelled as `none`) and
aborts the processing of the whole row list; a row with both cells present
never triggers this abort. -/
theorem missing_required_field_fatal (parseF : String → Option ℚ)
    (record : List String) (s : WMap × KMap) :
    (recordGet record 0 = none ∨ recordGet record 1 = none →
        processRecord parseF record s = none) ∧
    (∀ a b, recordGet record 0 = some a → recordGet record 1 = some b →
        (processRecord parseF record s).isSome) ∧
    (∀ pre post, recordGet record 0 = none ∨ recordGet record 1 = none →
        process_rows parseF (pre ++ record :: post) s = none) := by
  have habort : recordGet record 0 = none ∨ recordGet record 1 = none →
      ∀ t : WMap × KMap, processRecord parseF record t = none := by
    intro h t
    unfold processRecord
    rcases h with h | h
    · rw [process_weapon_record_missing t.1 h]
    · rcases hw : process_weapon_record parseF record t.1 with _ | w2
      · rfl
      · rw [process_killer_record_missing t.2 h]
  refine ⟨fun h => habort h s, ?_, ?_⟩
  · intro a b h0 h1
    unfold processRecord
    rcases hw : process_weapon_record parseF record s.1 with _ | w2
    · exact absurd hw (by
        have := @process_weapon_record_isSome parseF record s.1 a h0
        intro hc
        rw [hc] at this
        cases this)
    · rcases hk : process_killer_record record s.2 with _ | k2
      · exact absurd hk (by
          have := process_killer_record_isSome s.2 h1 h0
          intro hc
          rw [hc] at this
          cases this)
      · rfl
  · intro pre post h
    induction pre generalizing s with
    | nil =>
      rw [List.nil_append]
      unfold process_rows
      rw [habort h s]
    | cons r t ih =>
      show process_rows parseF (r :: (t ++ record :: post)) s = none
      unfold process_rows
      rcases hp : processRecord parseF r s with _ | s1
      · rfl
      · exact ih s1

theorem missing_required_field_fatal_witness :
    processRecord (fun _ => none) [] ((fun _ => none), (fun _ => none)) = none ∧
    processRecord (fun _ => none) ["Knife"] ((fun _ => none), (fun _ => none)) = none ∧
    (processRecord (fun _ => none) ["Knife", "Alice"]
        ((fun _ => none), (fun _ => none))).isSome ∧
    process_rows (fun _ => none) [["Knife", "Alice"], ["Knife"]]
        ((fun _ => none), (fun _ => none)) = none := by
  refine ⟨?_, ?_, ?_, ?_⟩
  · exact (missing_required_field_fatal (fun _ => none) [] _).1 (Or.inl rfl)
  · exact (missing_required_field_fatal (fun _ => none) ["Knife"] _).1 (Or.inr rfl)
  · exact (missing_required_field_fatal (fun _ => none) ["Knife", "Alice"] _).2.1
      "Knife" "Alice" rfl rfl
  · exact (missing_required_field_fatal (fun _ => none) ["Knife"] _).2.2
      [["Knife", "Alice"]] [] (Or.inr rfl)

/-! ### Claim C10 -/

/-- C10. An empty-string weapon or killer cell is present, not
missing: the row is aggregated normally under the empty-string key (weapon
kill count and killer kill count at key `""` each increase by one) and no
error is raised. -/
theorem empty_string_is_present (parseF : String → Option ℚ)
    (rest : List String) (s : WMap × KMap) :
    ∃ w2 k2, processRecord parseF ("" :: "" :: rest) s = some (w2, k2) ∧
      killsAt w2 "" = killsAt s.1 "" + 1 ∧
      killerDeathsAt k2 "" = killerDeathsAt s.2 "" + 1 := by
  unfold processRecord process_weapon_record process_killer_record
  dsimp only [recordGet, List.get?]
  rcases hw : s.1 "" with _ | cw <;> dsimp only <;>
    rcases hk : s.2 "" with _ | ck <;> dsimp only <;>
    refine ⟨_, _, rfl, ?_, ?_⟩ <;>
    simp [killsAt, killerDeathsAt, hw, hk]

/-! ### Counting (claim C6) -/

/-- Sum of the kill counts stored under the keys `ks`. -/
def sumKills (ks : List String) (m : WMap) : Nat := (ks.map (killsAt m)).sum

/-- All keys present in `m` appear in `ks`. -/
def SuppIn (m : WMap) (ks : List String) : Prop := ∀ k, (m k).isSome → k ∈ ks

theorem killsAt_merge (m1 m2 : WMap) (k : String) :
    killsAt (mergeWeaponMaps m1 m2) k = killsAt m1 k + killsAt m2 k := by
  unfold killsAt mergeWeaponMaps
  rcases m1 k with _ | v1 <;> rcases m2 k with _ | v2 <;> simp

theorem isSome_mergeWeaponMaps {m1 m2 : WMap} {k : String} :
    ((mergeWeaponMaps m1 m2) k).isSome ↔ (m1 k).isSome ∨ (m2 k).isSome := by
  unfold mergeWeaponMaps
  rcases m1 k with _ | v1 <;> rcases m2 k with _ | v2 <;> simp

theorem sumKills_merge (ks : List String) (m1 m2 : WMap) :
    sumKills ks (mergeWeaponMaps m1 m2) = sumKills ks m1 + sumKills ks m2 := by
  induction ks with
  | nil => rfl
  | cons a t ih =>
    simp only [sumKills, List.map_cons, List.sum_cons] at ih ⊢
    rw [killsAt_merge, ih]
    omega

theorem sumKills_empty (ks : List String) : sumKills ks (fun _ => none) = 0 := by
  induction ks with
  | nil => rfl
  | cons a t ih =>
    simp only [sumKills, List.map_cons, List.sum_cons] at ih ⊢
    rw [ih]
    rfl

theorem sumKills_update {ks : List String} (hnd : ks.Nodup) {m m2 : WMap}
    {wn : String} (hwn : wn ∈ ks) (hat : killsAt m2 wn = killsAt m wn + 1)
    (hoff : ∀ k, k ≠ wn → m2 k = m k) :
    sumKills ks m2 = sumKills ks m + 1 := by
  induction ks with
  | nil => cases hwn
  | cons a t ih =>
    simp only [sumKills, List.map_cons, List.sum_cons]
    by_cases haw : a = wn
    · subst haw
      have ht : t.map (killsAt m2) = t.map (killsAt m) := by
        refine List.map_congr_left ?_
        intro k hk
        have hne : k ≠ a := fun hc => (List.nodup_cons.1 hnd).1 (hc ▸ hk)
        unfold killsAt
        rw [hoff k hne]
      rw [hat, ht]
      omega
    · have ha : killsAt m2 a = killsAt m a := by
        unfold killsAt
        rw [hoff a haw]
      have hmem : wn ∈ t :=
        (List.mem_cons.1 hwn).resolve_left (fun hc => haw hc.symm)
      have := ih (List.nodup_cons.1 hnd).2 hmem
      simp only [sumKills] at this
      rw [ha, this]
      omega

theorem killsAt_le_sum {ks : List String} {m : WMap} {k : String} (hk : k ∈ ks) :
    killsAt m k ≤ sumKills ks m :=
  List.single_le_sum (fun _ _ => Nat.zero_le _) _
    (List.mem_map_of_mem (killsAt m) hk)

/-- A successful `processRecord` increments exactly one weapon key. -/
theorem processRecord_weapons {parseF : String → Option ℚ}
    {record : List String} {s s2 : WMap × KMap}
    (h : processRecord parseF record s = some s2) :
    ∃ wn, recordGet record 0 = some wn ∧
      killsAt s2.1 wn = killsAt s.1 wn + 1 ∧ ∀ k, k ≠ wn → s2.1 k = s.1 k := by
  unfold processRecord at h
  rcases hwr : process_weapon_record parseF record s.1 with _ | w2 <;> rw [hwr] at h
  · cases h
  · rcases hkr : process_killer_record record s.2 with _ | k2 <;> rw [hkr] at h
    · cases h
    · obtain rfl := Option.some.inj h
      unfold process_weapon_record at hwr
      rcases hg : recordGet record 0 with _ | wn <;> rw [hg] at hwr
      · cases hwr
      · dsimp only at hwr
        rcases hm : s.1 wn with _ | current <;> rw [hm] at hwr <;>
          obtain rfl := Option.some.inj hwr
        · exact ⟨wn, rfl, by simp [killsAt, hm], fun k hk => by simp [hk]⟩
        · exact ⟨wn, rfl, by simp [killsAt, hm], fun k hk => by simp [hk]⟩

theorem process_rows_counts (parseF : String → Option ℚ) :
    ∀ (rows : List (List String)) (s s2 : WMap × KMap),
      process_rows parseF rows s = some s2 →
      (∀ k, ((s.1) k).isSome → ((s2.1) k).isSome) ∧
      (∀ ks, ks.Nodup → SuppIn s2.1 ks →
          sumKills ks s2.1 = sumKills ks s.1 + rows.length)
  | [], s, s2, h => by
    obtain rfl := Option.some.inj h
    exact ⟨fun k hk => hk, fun ks _ _ => by simp⟩
  | r :: rest, s, s2, h => by
    unfold process_rows at h
    rcases hp : processRecord parseF r s with _ | s1 <;> rw [hp] at h
    · cases h
    · obtain ⟨wn, hg, hat, hoff⟩ := processRecord_weapons hp
      obtain ⟨hmono, hsum⟩ := process_rows_counts parseF rest s1 s2 h
      have hsome1 : ((s1.1) wn).isSome := by
        rcases hq : s1.1 wn with _ | v
        · unfold killsAt at hat
          rw [hq] at hat
          simp at hat
        · rfl
      refine ⟨?_, ?_⟩
      · intro k hk
        apply hmono
        by_cases hkw : k = wn
        · subst hkw
          exact hsome1
        · rw [hoff k hkw]
          exact hk
      · intro ks hnd hsupp
        have hwn_mem : wn ∈ ks := hsupp wn (hmono wn hsome1)
        rw [hsum ks hnd hsupp, sumKills_update hnd hwn_mem hat hoff]
        simp only [List.length_cons]
        omega

/-- The counting contract of one partial or merged aggregate: its
`total_kills` is `n` and the kill counts of its weapon map sum to `n`
over any key cover. -/
def GoodAgg (n : Nat) (a : Agg) : Prop :=
  a.total_kills = n ∧
    ∀ ks, ks.Nodup → SuppIn a.weapons ks → sumKills ks a.weapons = n

theorem process_file_good {parseF : String → Option ℚ}
    {rows : List (List String)} {a : Agg}
    (h : process_file parseF rows = some a) : GoodAgg rows.length a := by
  unfold process_file at h
  rcases hr : process_rows parseF rows (fun _ => none, fun _ => none) with _ | s2 <;>
    rw [hr] at h
  · cases h
  · obtain ⟨w2, k2⟩ := s2
    obtain rfl := Option.some.inj h
    obtain ⟨-, hsum⟩ := process_rows_counts parseF rows _ _ hr
    refine ⟨rfl, ?_⟩
    intro ks hnd hsupp
    have := hsum ks hnd hsupp
    rwa [sumKills_empty, Nat.zero_add] at this

theorem goodAgg_empty : GoodAgg 0 emptyAgg :=
  ⟨rfl, fun ks _ _ => sumKills_empty ks⟩

theorem goodAgg_merge {n m : Nat} {a b : Agg}
    (ha : GoodAgg n a) (hb : GoodAgg m b) : GoodAgg (n + m) (merge a b) := by
  refine ⟨by simp [merge, ha.1, hb.1], ?_⟩
  intro ks hnd hsupp
  have hsa : SuppIn a.weapons ks := fun k hk =>
    hsupp k (isSome_mergeWeaponMaps.2 (Or.inl hk))
  have hsb : SuppIn b.weapons ks := fun k hk =>
    hsupp k (isSome_mergeWeaponMaps.2 (Or.inr hk))
  show sumKills ks (mergeWeaponMaps a.weapons b.weapons) = n + m
  rw [sumKills_merge, ha.2 ks hnd hsa, hb.2 ks hnd hsb]

theorem foldl_merge_good :
    ∀ {ns : List Nat} {aggs : List Agg}, List.Forall₂ GoodAgg ns aggs →
      ∀ {m : Nat} {acc : Agg}, GoodAgg m acc →
        GoodAgg (m + ns.sum) (aggs.foldl merge acc)
  | _, _, List.Forall₂.nil, m, acc, hacc => by simpa using hacc
  | _, _, List.Forall₂.cons hab htail, m, acc, hacc => by
    rename_i n a ns2 aggs2
    simp only [List.foldl_cons, List.sum_cons]
    have := foldl_merge_good htail (goodAgg_merge hacc hab)
    rwa [show m + (n + ns2.sum) = m + n + ns2.sum by omega]

theorem mapM_option_forall₂ {α β : Type} {f : α → Option β} :
    ∀ {l : List α} {l2 : List β}, l.mapM f = some l2 →
      List.Forall₂ (fun a b => f a = some b) l l2
  | [], l2, h => by
    rw [List.mapM_nil] at h
    obtain rfl : [] = l2 := Option.some.inj h
    exact List.Forall₂.nil
  | a :: t, l2, h => by
    rw [List.mapM_cons] at h
    rcases hfa : f a with _ | b <;> rw [hfa] at h
    · simp at h
    · rcases hft : t.mapM f with _ | bs <;> rw [hft] at h
      · simp at h
      · simp only [Option.bind_some, Option.pure_def] at h
        obtain rfl := Option.some.inj h
        exact List.Forall₂.cons hfa (mapM_option_forall₂ hft)

theorem round2q_nonneg {x : ℚ} (hx : 0 ≤ x) : 0 ≤ round2q x := by
  unfold round2q
  have h : (0 : ℤ) ≤ ⌊x * 100 + 1 / 2⌋ := by
    rw [Int.le_floor]
    push_cast
    nlinarith
  exact div_nonneg (by exact_mod_cast h) (by norm_num)

theorem round2q_le_100 {x : ℚ} (hx : x ≤ 100) : round2q x ≤ 100 := by
  unfold round2q
  rw [div_le_iff₀ (by norm_num : (0 : ℚ) < 100)]
  have h : ⌊x * 100 + 1 / 2⌋ ≤ ⌊(100 * 100 + 1 / 2 : ℚ)⌋ :=
    Int.floor_le_floor (by nlinarith)
  have h2 : (⌊(100 * 100 + 1 / 2 : ℚ)⌋ : ℤ) = 10000 := by
    rw [Int.floor_eq_iff] <;> norm_num
  calc ((⌊x * 100 + 1 / 2⌋ : ℤ) : ℚ) ≤ ((10000 : ℤ) : ℚ) := by
        exact_mod_cast h2 ▸ h
    _ = 100 * 100 := by norm_num

/-! ### Claim C6 -/

/-- C6. For every successful run: the global `record_count` equals the
sum of the per-file data-row counts (header excluded — a file is modelled
as its data rows); the kill counts of all weapons sum to that record count;
and with a positive record count every computed `death_percentage` lies in
`[0, 100]`. -/
theorem global_aggregate_counts (parseF : String → Option ℚ)
    (files : List (List (List String))) (g : Agg)
    (hg : process_files parseF files = some g) :
    g.total_kills = (files.map List.length).sum ∧
    (∀ ks : List String, ks.Nodup → SuppIn g.weapons ks →
        sumKills ks g.weapons = g.total_kills) ∧
    (0 < g.total_kills →
      ∀ l, Enumerates g.weapons l →
        ∀ w ∈ calculate_top_weapons (l.map Prod.snd) g.total_kills,
          0 ≤ w.deaths_percentage ∧ w.deaths_percentage ≤ 100) := by
  have hgood : GoodAgg ((files.map List.length).sum) g := by
    unfold process_files at hg
    rcases hm : files.mapM (process_file parseF) with _ | aggs <;> rw [hm] at hg
    · cases hg
    · obtain rfl := Option.some.inj hg
      have hf2 := mapM_option_forall₂ hm
      have hgood2 : List.Forall₂ GoodAgg (files.map List.length) aggs := by
        rw [List.forall₂_map_left_iff]
        exact hf2.imp (fun rows a h => process_file_good h)
      simpa using foldl_merge_good hgood2 goodAgg_empty
  obtain ⟨htot, hsum⟩ := hgood
  refine ⟨htot, ?_, ?_⟩
  · intro ks hnd hsupp
    rw [hsum ks hnd hsupp, htot]
  · intro hpos l henum w hw
    have hmem : w ∈ (l.map Prod.snd).map (mkWeapon g.total_kills) := by
      have h1 : w ∈ sortBy weaponLe ((l.map Prod.snd).map (mkWeapon g.total_kills)) :=
        List.Sublist.mem hw (List.take_sublist _ _)
      exact (sortBy_perm _ _).mem_iff.1 h1
    obtain ⟨v, hv, rfl⟩ := List.mem_map.1 hmem
    obtain ⟨p, hp, rfl⟩ := List.mem_map.1 hv
    have hlookup : g.weapons p.1 = some p.2 := enumerates_lookup henum hp
    have hks : sumKills (l.map Prod.fst) g.weapons = g.total_kills := by
      rw [hsum (l.map Prod.fst) henum.1 ?_, htot]
      intro k hk
      obtain ⟨val, hval⟩ := Option.isSome_iff_exists.1 hk
      exact List.mem_map_of_mem Prod.fst ((henum.2 k val).1 hval)
    have hcount : p.2.amount_deaths ≤ g.total_kills := by
      have h1 : killsAt g.weapons p.1 = p.2.amount_deaths := by
        unfold killsAt
        rw [hlookup]
      have h2 : killsAt g.weapons p.1 ≤ sumKills (l.map Prod.fst) g.weapons :=
        killsAt_le_sum (List.mem_map_of_mem Prod.fst hp)
      omega
    have hratio : ((p.2.amount_deaths : ℚ) / (g.total_kills : ℚ)) * 100 ≤ 100 := by
      have hr1 : (p.2.amount_deaths : ℚ) / (g.total_kills : ℚ) ≤ 1 := by
        rw [div_le_one (by exact_mod_cast hpos)]
        exact_mod_cast hcount
      nlinarith
    simp only [mkWeapon]
    constructor
    · apply round2q_nonneg
      positivity
    · exact round2q_le_100 hratio

theorem global_aggregate_counts_witness :
    ∃ g : Agg, process_files (fun _ => none) [[["Knife", "Alice"]]] = some g ∧
      g.total_kills = 1 :=
  ⟨_, rfl, ((global_aggregate_counts (fun _ => none)
    [[["Knife", "Alice"]]] _ rfl).1).trans (by decide)⟩

/-! ### Claim C2 -/

/-- C2, evaluated at the failing inputs. When serialization fails,
the `expect` panics before `File::create`: nonzero status (the Rust panic
status 101), the failure is reported, and no file exists.  But when the
output file cannot be created or written, `write_json_to_file` returns
`Err`, which the tail of `main` (lines 464-467) merely prints before
returning `Ok(())`: the process exits with status 0, and a failed
`write_all` can leave a partially written file — contradicting the claimed
"nonzero exit status" and "no partial output file". -/
theorem write_failure_outcomes :
    mainWriteStep ⟨false, true, true⟩ = ⟨101, .absent, true⟩ ∧
    mainWriteStep ⟨true, false, true⟩ = ⟨0, .absent, true⟩ ∧
    mainWriteStep ⟨true, true, false⟩ = ⟨0, .incomplete, true⟩ :=
  ⟨rfl, rfl, rfl⟩

/-! ### Additional concrete instantiations of the ranking claims -/

theorem top_weapons_ranked_witness :
    (calculate_top_weapons [⟨"Axe", 1, 0⟩, ⟨"Bat", 1, 0⟩] 2).map Weapon.name
      = ["Axe", "Bat"] :=
  (top_weapons_ranked [⟨"Axe", 1, 0⟩, ⟨"Bat", 1, 0⟩] 2).2.2.1

theorem top_killers_ranked_witness :
    (calculate_top_killers [⟨"Bob", 2, [("Axe", 1), ("Gun", 1)]⟩]).length = 1 := by
  have h := (top_killers_ranked [⟨"Bob", 2, [("Axe", 1), ("Gun", 1)]⟩]).2.1
  simpa using h

theorem empty_string_is_present_witness :
    ∃ w2 k2, processRecord (fun _ => none) ["", ""]
        ((fun _ => none), (fun _ => none)) = some (w2, k2) ∧
      killsAt w2 "" = killsAt (fun _ => none) "" + 1 ∧
      killerDeathsAt k2 "" = killerDeathsAt (fun _ => none) "" + 1 :=
  empty_string_is_present (fun _ => none) [] ((fun _ => none), (fun _ => none))

end TP1
